import Mathlib

/-!
Verification of the collection-registry metadata-extraction core.

The source code is a pair of text-scanning field analyzers (a TypeScript copy
and a JavaScript copy of `analyzeFields` / `extractCollectionMetadata` /
`getTypeScriptType` / `pluralize` / `singularize` / `deduplicateFields`),
plus a types generator.  Documents are modelled as `List Char`; the regular
expressions used by the source
(`/name:\s*['"<backtick>]([^'"<backtick>]+)['"<backtick>]/g` and its
`type:` / `slug:` / `useAsTitle:` variants) are deterministic because the
whitespace class, the quote class and the body class are pairwise disjoint,
so they are embedded as a direct maximal-munch matcher.
-/

/-- JavaScript `\s` character class (the whitespace characters recognised by
the regexes in the source). -/
def isJsSpace (c : Char) : Bool :=
  c.toNat = 32 || c.toNat = 9 || c.toNat = 10 || c.toNat = 11 || c.toNat = 12 ||
  c.toNat = 13 || c.toNat = 160 || c.toNat = 5760 ||
  (8192 ≤ c.toNat && c.toNat ≤ 8202) || c.toNat = 8232 || c.toNat = 8233 ||
  c.toNat = 8239 || c.toNat = 8287 || c.toNat = 12288 || c.toNat = 65279

/-- The quote class of the source regexes: single quote, double quote,
backtick (code points 39, 34, 96). -/
def isQuote (c : Char) : Bool := c.toNat = 39 || c.toNat = 34 || c.toNat = 96

def notQuote (c : Char) : Bool := ! isQuote c

/-- Match the source pattern `key` `\s*` `['"<backtick>]` `([^'"<backtick>]+)`
`['"<backtick>]` at the head of `l`.  Returns the captured group together with
the total length of the match.  Because the whitespace run and the body run
are maximal and disjoint from the quote class, this is exactly the JavaScript
regex semantics at this position. -/
def matchKeyAt (key l : List Char) : Option (List Char × Nat) :=
  if key.isPrefixOf l then
    match (l.drop key.length).dropWhile isJsSpace with
    | [] => none
    | q :: r3 =>
      if isQuote q then
        match r3.dropWhile notQuote with
        | [] => none
        | q2 :: _ =>
          if isQuote q2 && ! (r3.takeWhile notQuote).isEmpty then
            some (r3.takeWhile notQuote,
                  key.length + ((l.drop key.length).takeWhile isJsSpace).length + 1 +
                    (r3.takeWhile notQuote).length + 1)
          else none
      else none
  else none

/-- `String.prototype.matchAll` over the pattern of `matchKeyAt`: leftmost
scan, a successful match is emitted as `(index, capture)` and scanning resumes
just past its end; otherwise the scan advances one position.  The fuel is the
length of the remaining text; each step consumes at least one character, so
the initial fuel `l.length` never runs out (the recursion is on the fuel only
so that the function reduces in the kernel). -/
def scanMatchesAux (key : List Char) : Nat → List Char → Nat → List (Nat × List Char)
  | 0, _, _ => []
  | _ + 1, [], _ => []
  | fuel + 1, c :: rest, i =>
    match matchKeyAt key (c :: rest) with
    | some (s, n) => (i, s) :: scanMatchesAux key fuel ((c :: rest).drop n) (i + n)
    | none => scanMatchesAux key fuel rest (i + 1)

/-- All matches of the name/type/slug pattern in a document (the source's
`content.matchAll(...)`). -/
def scanMatches (key l : List Char) : List (Nat × List Char) :=
  scanMatchesAux key l.length l 0

/-- First match of the pattern in a document (the source's
`content.match(...)`), returning only the captured group. -/
def findFirstMatch (key : List Char) : List Char → Option (List Char)
  | [] => none
  | c :: rest =>
    match matchKeyAt key (c :: rest) with
    | some (s, _) => some s
    | none => findFirstMatch key rest

/-- `String.prototype.includes`: `needle` occurs as a contiguous substring. -/
def isSubstrIn (needle : List Char) : List Char → Bool
  | [] => needle.isEmpty
  | c :: rest => needle.isPrefixOf (c :: rest) || isSubstrIn needle rest

def nameKey : List Char := "name:".toList
def typeKey : List Char := "type:".toList
def slugKey : List Char := "slug:".toList
def titleKey : List Char := "useAsTitle:".toList
def requiredMarker : List Char := "required: true".toList
def publicMarker : List Char := "read: () => true".toList

/-- Number of positions of `l` at which the pattern for `key` matches
(occurrences of the pattern anywhere in the text, overlapping or not). -/
def occCount (key l : List Char) : Nat :=
  (List.range (l.length + 1)).countP (fun i => (matchKeyAt key (l.drop i)).isSome)

/-! ## Data model -/

/-- Field metadata extracted for one field (`FieldMetadata` in the source). -/
structure FieldMetadata where
  name : List Char
  type : List Char
  required : Bool
deriving DecidableEq, Repr

def defaultField : FieldMetadata := { name := [], type := [], required := false }

/-- Collection metadata (`CollectionMetadata` in the source). -/
structure CollectionMetadata where
  slug : List Char
  displayName : List Char
  pluralName : List Char
  filename : List Char
  fields : List FieldMetadata
  hasSlug : Bool
  hasStatus : Bool
  hasSEO : Bool
  hasNavigation : Bool
  hasFeaturedImage : Bool
  hasExcerpt : Bool
  hasTags : Bool
  hasAuthor : Bool
  isPublic : Bool
deriving DecidableEq, Repr

/-! ## String helpers (`capitalize`, suffix tests, `slice(0, -k)`) -/

/-- `str.charAt(0).toUpperCase() + str.slice(1)` (identical in both copies). -/
def capitalize : List Char → List Char
  | [] => []
  | c :: rest => c.toUpper :: rest

/-- `str.endsWith(s)`. -/
def endsWithL (l s : List Char) : Bool := s.isSuffixOf l

/-- `str.slice(0, -k)` for `1 ≤ k ≤ str.length`. -/
def dropRightL (l : List Char) (k : Nat) : List Char := l.take (l.length - k)

/-! ## Inflection helpers, TypeScript copy (src fieldAnalyzer.ts) and
JavaScript copy (src fieldAnalyzer.js).  The only textual difference is that
the TypeScript `pluralize` also maps the already-plural `"Posts"` to itself,
while the JavaScript copy has no `"Posts"` case. -/

def pluralizeTS (str : List Char) : List Char :=
  if str = "Media".toList then "Media".toList
  else if str = "Pages".toList then "Pages".toList
  else if str = "Users".toList then "Users".toList
  else if str = "Posts".toList then "Posts".toList
  else if str = "Examples".toList then "Examples".toList
  else if endsWithL str "y".toList then dropRightL str 1 ++ "ies".toList
  else if endsWithL str "s".toList || endsWithL str "sh".toList || endsWithL str "ch".toList then
    str ++ "es".toList
  else str ++ "s".toList

def pluralizeJS (str : List Char) : List Char :=
  if str = "Media".toList then "Media".toList
  else if str = "Pages".toList then "Pages".toList
  else if str = "Users".toList then "Users".toList
  else if str = "Examples".toList then "Examples".toList
  else if endsWithL str "y".toList then dropRightL str 1 ++ "ies".toList
  else if endsWithL str "s".toList || endsWithL str "sh".toList || endsWithL str "ch".toList then
    str ++ "es".toList
  else str ++ "s".toList

def singularizeTS (str : List Char) : List Char :=
  if str = "Media".toList then "Media".toList
  else if str = "Pages".toList then "Page".toList
  else if str = "Users".toList then "User".toList
  else if endsWithL str "ies".toList then dropRightL str 3 ++ "y".toList
  else if endsWithL str "es".toList then dropRightL str 2
  else if endsWithL str "s".toList then dropRightL str 1
  else str

def singularizeJS (str : List Char) : List Char :=
  if str = "Media".toList then "Media".toList
  else if str = "Pages".toList then "Page".toList
  else if str = "Users".toList then "User".toList
  else if endsWithL str "ies".toList then dropRightL str 3 ++ "y".toList
  else if endsWithL str "es".toList then dropRightL str 2
  else if endsWithL str "s".toList then dropRightL str 1
  else str

/-- The irregular inputs special-cased by the TypeScript `pluralize`. -/
def pluralSpecialInputs : List (List Char) :=
  ["Media".toList, "Pages".toList, "Users".toList, "Posts".toList, "Examples".toList]

/-- The irregular inputs special-cased by `singularize` (both copies). -/
def singularSpecialInputs : List (List Char) :=
  ["Media".toList, "Pages".toList, "Users".toList]

/-! ## Type mapper -/

/-- The `typeMap` object literal of `getTypeScriptType` (identical in both
copies). -/
def typeMap : List (List Char × List Char) :=
  [("text".toList, "string".toList),
   ("textarea".toList, "string".toList),
   ("richText".toList, "any".toList),
   ("number".toList, "number".toList),
   ("email".toList, "string".toList),
   ("date".toList, "string".toList),
   ("checkbox".toList, "boolean".toList),
   ("select".toList, "string".toList),
   ("radio".toList, "string".toList),
   ("upload".toList, "Media".toList),
   ("relationship".toList, "any".toList),
   ("array".toList, "any[]".toList),
   ("group".toList, "any".toList),
   ("blocks".toList, "any[]".toList)]

/-- Key lookup in an object literal. -/
def lookupL (t : List Char) : List (List Char × List Char) → Option (List Char)
  | [] => none
  | (k, val) :: rest => if t = k then some val else lookupL t rest

/-- `typeMap[payloadType]` as an `Option`. -/
def typeMapLookup (t : List Char) : Option (List Char) := lookupL t typeMap

/-- `getTypeScriptType` (TypeScript copy).  The name-based special cases are
checked before the table; `typeMap[payloadType] || 'any'` is `getD` because
every table value is a non-empty (hence truthy) string. -/
def getTypeScriptTypeTS (payloadType fieldName : List Char) : List Char :=
  if fieldName = "status".toList ∧ payloadType = "select".toList then
    "\"draft\" | \"published\"".toList
  else if fieldName = "template".toList ∧ payloadType = "select".toList then
    "\"default\" | \"full-width\" | \"sidebar\" | \"landing\"".toList
  else (typeMapLookup payloadType).getD "any".toList

/-- `getTypeScriptType` (JavaScript copy; textually identical logic). -/
def getTypeScriptTypeJS (payloadType fieldName : List Char) : List Char :=
  if fieldName = "status".toList ∧ payloadType = "select".toList then
    "\"draft\" | \"published\"".toList
  else if fieldName = "template".toList ∧ payloadType = "select".toList then
    "\"default\" | \"full-width\" | \"sidebar\" | \"landing\"".toList
  else (typeMapLookup payloadType).getD "any".toList

/-! ## Field analyzers -/

/-- One loop iteration of the TypeScript `analyzeFields` for the match
`m = (fieldStart, fieldName)`: the type is the first `type:` match in
`content.substring(fieldStart)` (with the `typeMatch && typeMatch[1]`
truthiness test), the required flag is
`content.substring(fieldStart, fieldStart + 200).includes('required: true')`. -/
def mkFieldTS (content : List Char) (m : Nat × List Char) : FieldMetadata :=
  { name := m.2
    type :=
      match findFirstMatch typeKey (content.drop m.1) with
      | some t => if t = [] then "text".toList else t
      | none => "text".toList
    required := isSubstrIn requiredMarker ((content.drop m.1).take 200) }

/-- One loop iteration of the JavaScript `analyzeFields` (its truthiness test
is `typeMatch` alone). -/
def mkFieldJS (content : List Char) (m : Nat × List Char) : FieldMetadata :=
  { name := m.2
    type := (findFirstMatch typeKey (content.drop m.1)).getD "text".toList
    required := isSubstrIn requiredMarker ((content.drop m.1).take 200) }

/-- `analyzeFields` (TypeScript copy): iterates the `name:` matches; the
`if (!fieldName || fieldStart === undefined) continue` guard drops matches
with an empty capture. -/
def analyzeFieldsTS (content : List Char) : List FieldMetadata :=
  (scanMatches nameKey content).filterMap
    (fun m => if m.2 = [] then none else some (mkFieldTS content m))

/-- `analyzeFields` (JavaScript copy): no guard. -/
def analyzeFieldsJS (content : List Char) : List FieldMetadata :=
  (scanMatches nameKey content).map (mkFieldJS content)

/-! ## Metadata extraction -/

/-- Display-name computation of the TypeScript `extractCollectionMetadata`:
`titleMatch && titleMatch[1] ? capitalize(titleMatch[1]) : capitalize(slug)`,
then the special case `titleMatch[1] === 'title'` overrides with
`capitalize(slug)`. -/
def displayNameTS (titleMatch : Option (List Char)) (slug : List Char) : List Char :=
  match titleMatch with
  | some t =>
    if t = "title".toList then capitalize slug
    else if t = [] then capitalize slug
    else capitalize t
  | none => capitalize slug

/-- Display-name computation of the JavaScript copy
(`titleMatch ? capitalize(titleMatch[1]) : capitalize(slug)` plus the same
`'title'` special case). -/
def displayNameJS (titleMatch : Option (List Char)) (slug : List Char) : List Char :=
  match titleMatch with
  | some t =>
    if t = "title".toList then capitalize slug
    else capitalize t
  | none => capitalize slug

/-- `extractCollectionMetadata` (TypeScript copy).  The embedding is total:
the source body has no throwing operation, so the `try/catch` arm is dead and
the only `null` results are the two explicit guards. -/
def extractCollectionMetadataTS (content filename : List Char) : Option CollectionMetadata :=
  match findFirstMatch slugKey content with
  | none => none
  | some slug =>
    if slug = [] then none
    else
      some
        { slug := slug
          displayName := displayNameTS (findFirstMatch titleKey content) slug
          pluralName := pluralizeTS (displayNameTS (findFirstMatch titleKey content) slug)
          filename := filename
          fields := analyzeFieldsTS content
          hasSlug := (analyzeFieldsTS content).any (fun f => f.name = "slug".toList)
          hasStatus := (analyzeFieldsTS content).any (fun f => f.name = "status".toList)
          hasSEO := (analyzeFieldsTS content).any (fun f => f.name = "seo".toList)
          hasNavigation :=
            (analyzeFieldsTS content).any (fun f => f.name = "showInNavigation".toList)
          hasFeaturedImage :=
            (analyzeFieldsTS content).any (fun f => f.name = "featuredImage".toList)
          hasExcerpt := (analyzeFieldsTS content).any (fun f => f.name = "excerpt".toList)
          hasTags := (analyzeFieldsTS content).any (fun f => f.name = "tags".toList)
          hasAuthor := (analyzeFieldsTS content).any (fun f => f.name = "author".toList)
          isPublic := isSubstrIn publicMarker content }

/-- `extractCollectionMetadata` (JavaScript copy: no `if (!slug) return null`
guard, JavaScript display-name computation, JavaScript analyzer and
pluralizer). -/
def extractCollectionMetadataJS (content filename : List Char) : Option CollectionMetadata :=
  match findFirstMatch slugKey content with
  | none => none
  | some slug =>
    some
      { slug := slug
        displayName := displayNameJS (findFirstMatch titleKey content) slug
        pluralName := pluralizeJS (displayNameJS (findFirstMatch titleKey content) slug)
        filename := filename
        fields := analyzeFieldsJS content
        hasSlug := (analyzeFieldsJS content).any (fun f => f.name = "slug".toList)
        hasStatus := (analyzeFieldsJS content).any (fun f => f.name = "status".toList)
        hasSEO := (analyzeFieldsJS content).any (fun f => f.name = "seo".toList)
        hasNavigation :=
          (analyzeFieldsJS content).any (fun f => f.name = "showInNavigation".toList)
        hasFeaturedImage :=
          (analyzeFieldsJS content).any (fun f => f.name = "featuredImage".toList)
        hasExcerpt := (analyzeFieldsJS content).any (fun f => f.name = "excerpt".toList)
        hasTags := (analyzeFieldsJS content).any (fun f => f.name = "tags".toList)
        hasAuthor := (analyzeFieldsJS content).any (fun f => f.name = "author".toList)
        isPublic := isSubstrIn publicMarker content }

/-! ## Deduplication and the downstream type-file emitter fragment -/

/-- The `seen`-set filter of `deduplicateFields` (identical in both copies). -/
def dedupGo (seen : List (List Char)) : List FieldMetadata → List FieldMetadata
  | [] => []
  | f :: rest =>
    if f.name ∈ seen then dedupGo seen rest
    else f :: dedupGo (f.name :: seen) rest

def deduplicateFields (fields : List FieldMetadata) : List FieldMetadata :=
  dedupGo [] fields

/-- The field-definition lines built by `generateCollectionTypeFile`
(src collectionRegistry.ts): `deduplicateFields` first, then one line
`  name?: type;` per retained field. -/
def generateFieldDefinitions (fields : List FieldMetadata) : List (List Char) :=
  (deduplicateFields fields).map (fun f =>
    "  ".toList ++ f.name ++ (if f.required then [] else "?".toList) ++ ": ".toList ++
      getTypeScriptTypeTS f.type f.name ++ ";".toList)

theorem matchKeyAt_pos {key l s : List Char} {n : Nat}
    (h : matchKeyAt key l = some (s, n)) : 1 ≤ n ∧ s ≠ [] := by
  unfold matchKeyAt at h
  split at h
  case isTrue hpre =>
    split at h
    · exact absurd h (by simp)
    case h_2 q r3 heq =>
      split at h
      · split at h
        · exact absurd h (by simp)
        case h_2 q2 r5 heq2 =>
          split at h
          case isTrue hg =>
            simp only [Option.some.injEq, Prod.mk.injEq] at h
            obtain ⟨hs, hn⟩ := h
            refine ⟨by omega, ?_⟩
            subst hs
            intro hnil
            rw [hnil] at hg
            simp at hg
          · exact absurd h (by simp)
      · exact absurd h (by simp)
  · exact absurd h (by simp)

theorem matchKeyAt_nil {key : List Char} (h : key ≠ []) :
    matchKeyAt key [] = none := by
  cases key with
  | nil => exact absurd rfl h
  | cons a as => rfl


/- basic lemmas about the scanner -/

theorem scanMatchesAux_sound (key : List Char) (fuel : Nat) :
    ∀ l i, ∀ p ∈ scanMatchesAux key fuel l i,
      i ≤ p.1 ∧ ∃ n, matchKeyAt key (l.drop (p.1 - i)) = some (p.2, n) := by
  induction fuel with
  | zero => intro l i p hp; simp [scanMatchesAux] at hp
  | succ fuel ih =>
    intro l i p hp
    cases l with
    | nil => simp [scanMatchesAux] at hp
    | cons c rest =>
      cases hm : matchKeyAt key (c :: rest) with
      | none =>
        rw [scanMatchesAux, hm] at hp
        obtain ⟨h1, n, h2⟩ := ih _ _ p hp
        refine ⟨by omega, n, ?_⟩
        have : (c :: rest).drop (p.1 - i) = rest.drop (p.1 - (i + 1)) := by
          have hd : p.1 - i = (p.1 - (i + 1)) + 1 := by omega
          rw [hd, List.drop_succ_cons]
        rw [this]
        exact h2
      | some pr =>
        obtain ⟨s, n0⟩ := pr
        rw [scanMatchesAux, hm] at hp
        rcases List.mem_cons.1 hp with hp | hp
        · subst hp
          exact ⟨le_refl _, n0, by simpa using hm⟩
        · have hpos := (matchKeyAt_pos hm).1
          obtain ⟨h1, n, h2⟩ := ih _ _ p hp
          refine ⟨by omega, n, ?_⟩
          rw [List.drop_drop] at h2
          have : n0 + (p.1 - (i + n0)) = p.1 - i := by omega
          rw [this] at h2
          exact h2

theorem scanMatchesAux_chain (key : List Char) (fuel : Nat) :
    ∀ l i, List.Chain' (fun a b : Nat × List Char => a.1 < b.1)
      (scanMatchesAux key fuel l i) := by
  induction fuel with
  | zero => intro l i; simp [scanMatchesAux]
  | succ fuel ih =>
    intro l i
    cases l with
    | nil => simp [scanMatchesAux]
    | cons c rest =>
      cases hm : matchKeyAt key (c :: rest) with
      | none => rw [scanMatchesAux, hm]; exact ih _ _
      | some pr =>
        obtain ⟨s, n0⟩ := pr
        rw [scanMatchesAux, hm]
        refine List.chain'_cons'.2 ⟨?_, ih _ _⟩
        intro y hy
        have hmem := List.mem_of_mem_head? hy
        have := (scanMatchesAux_sound key fuel _ _ y hmem).1
        have hpos := (matchKeyAt_pos hm).1
        simpa using by omega

theorem scanMatches_sound (key l : List Char) :
    ∀ p ∈ scanMatches key l, ∃ n, matchKeyAt key (l.drop p.1) = some (p.2, n) := by
  intro p hp
  obtain ⟨-, n, h⟩ := scanMatchesAux_sound key l.length l 0 p hp
  exact ⟨n, by simpa using h⟩

theorem scanMatches_snd_ne_nil (key l : List Char) :
    ∀ p ∈ scanMatches key l, p.2 ≠ [] := by
  intro p hp
  obtain ⟨n, h⟩ := scanMatches_sound key l p hp
  exact (matchKeyAt_pos h).2

theorem findFirstMatch_ne_nil {key l t : List Char}
    (h : findFirstMatch key l = some t) : t ≠ [] := by
  induction l with
  | nil => simp [findFirstMatch] at h
  | cons c rest ih =>
    rw [findFirstMatch] at h
    cases hm : matchKeyAt key (c :: rest) with
    | none => rw [hm] at h; exact ih h
    | some pr =>
      obtain ⟨s, n⟩ := pr
      rw [hm] at h
      simp only [Option.some.injEq] at h
      subst h
      exact (matchKeyAt_pos hm).2

theorem findFirstMatch_eq_none {key : List Char} :
    ∀ {l : List Char}, (∀ j, matchKeyAt key (l.drop j) = none) →
      findFirstMatch key l = none := by
  intro l
  induction l with
  | nil => intro _; rfl
  | cons c rest ih =>
    intro h
    have h0 := h 0
    simp only [List.drop_zero] at h0
    rw [findFirstMatch, h0]
    exact ih (fun j => by simpa [List.drop_succ_cons] using h (j + 1))

theorem findFirstMatch_eq_some {key : List Char} (hkey : key ≠ []) :
    ∀ {l : List Char} {j : Nat} {s : List Char} {n : Nat},
      matchKeyAt key (l.drop j) = some (s, n) →
      (∀ j', j' < j → matchKeyAt key (l.drop j') = none) →
      findFirstMatch key l = some s := by
  intro l
  induction l with
  | nil =>
    intro j s n h _
    rw [List.drop_nil, matchKeyAt_nil hkey] at h
    exact absurd h (by simp)
  | cons c rest ih =>
    intro j s n h hlt
    cases j with
    | zero =>
      simp only [List.drop_zero] at h
      rw [findFirstMatch, h]
    | succ j =>
      have h0 := hlt 0 (Nat.succ_pos j)
      simp only [List.drop_zero] at h0
      rw [findFirstMatch, h0]
      rw [List.drop_succ_cons] at h
      exact ih h (fun j' hj' => by
        simpa [List.drop_succ_cons] using hlt (j' + 1) (Nat.succ_lt_succ hj'))

theorem isSubstrIn_iff (needle : List Char) :
    ∀ hay : List Char, isSubstrIn needle hay = true ↔ ∃ x y, hay = x ++ needle ++ y := by
  intro hay
  induction hay with
  | nil =>
    simp only [isSubstrIn, List.isEmpty_iff]
    constructor
    · intro h; exact ⟨[], [], by simp [h]⟩
    · rintro ⟨x, y, hxy⟩
      rcases List.append_eq_nil.1 (List.append_eq_nil.1 hxy.symm).1 with ⟨-, h2⟩
      · exact h2
  | cons c rest ih =>
    rw [isSubstrIn, Bool.or_eq_true]
    constructor
    · rintro (h | h)
      · obtain ⟨y, hy⟩ := (List.isPrefixOf_iff_prefix.1 h)
        exact ⟨[], y, by simpa using hy.symm⟩
      · obtain ⟨x, y, hxy⟩ := ih.1 h
        exact ⟨c :: x, y, by simp [hxy]⟩
    · rintro ⟨x, y, hxy⟩
      cases x with
      | nil =>
        left
        exact List.isPrefixOf_iff_prefix.2 ⟨y, by simpa using hxy.symm⟩
      | cons c' x' =>
        right
        simp only [List.cons_append, List.cons.injEq] at hxy
        exact ih.2 ⟨x', y, hxy.2⟩


/-! ## Helper lemmas -/

theorem dedupGo_sublist (l : List FieldMetadata) :
    ∀ seen, (dedupGo seen l).Sublist l := by
  induction l with
  | nil => intro seen; simp [dedupGo]
  | cons f rest ih =>
    intro seen
    rw [dedupGo]
    split
    · exact (ih seen).cons f
    · exact (ih (f.name :: seen)).cons₂ f

theorem dedupGo_not_seen (l : List FieldMetadata) :
    ∀ seen, ∀ g ∈ dedupGo seen l, g.name ∉ seen := by
  induction l with
  | nil => intro seen g hg; simp [dedupGo] at hg
  | cons f rest ih =>
    intro seen g hg
    rw [dedupGo] at hg
    split at hg
    · exact ih seen g hg
    · rcases List.mem_cons.1 hg with hg | hg
      · subst hg
        assumption
      · have := ih (f.name :: seen) g hg
        exact fun hmem => this (List.mem_cons_of_mem _ hmem)

theorem dedupGo_names_nodup (l : List FieldMetadata) :
    ∀ seen, ((dedupGo seen l).map (fun f => f.name)).Nodup := by
  induction l with
  | nil => intro seen; simp [dedupGo]
  | cons f rest ih =>
    intro seen
    rw [dedupGo]
    split
    · exact ih seen
    · simp only [List.map_cons, List.nodup_cons]
      refine ⟨?_, ih (f.name :: seen)⟩
      intro hmem
      obtain ⟨g, hg, hgname⟩ := List.mem_map.1 hmem
      have := dedupGo_not_seen rest (f.name :: seen) g hg
      exact this (by simp [hgname])

theorem dedupGo_covers (l : List FieldMetadata) :
    ∀ seen, ∀ f ∈ l, f.name ∈ seen ∨ ∃ g ∈ dedupGo seen l, g.name = f.name := by
  induction l with
  | nil => intro seen f hf; simp at hf
  | cons f0 rest ih =>
    intro seen f hf
    rw [dedupGo]
    rcases List.mem_cons.1 hf with hf | hf
    · subst hf
      by_cases hs : f.name ∈ seen
      · exact Or.inl hs
      · right
        rw [if_neg hs]
        exact ⟨f, List.mem_cons_self _ _, rfl⟩
    · by_cases hs : f0.name ∈ seen
      · rw [if_pos hs]
        exact ih seen f hf
      · rw [if_neg hs]
        rcases ih (f0.name :: seen) f hf with hmem | ⟨g, hg, hgname⟩
        · rcases List.mem_cons.1 hmem with heq | hmem'
          · right
            exact ⟨f0, List.mem_cons_self _ _, heq.symm⟩
          · exact Or.inl hmem'
        · right
          exact ⟨g, List.mem_cons_of_mem _ hg, hgname⟩

theorem dedupGo_first_occurrence (l : List FieldMetadata) :
    ∀ seen, ∀ g ∈ dedupGo seen l,
      l.find? (fun f => f.name == g.name) = some g := by
  induction l with
  | nil => intro seen g hg; simp [dedupGo] at hg
  | cons f0 rest ih =>
    intro seen g hg
    rw [dedupGo] at hg
    split at hg
    case isTrue hs =>
      have hne : g.name ≠ f0.name := by
        intro heq
        exact dedupGo_not_seen rest seen g hg (heq ▸ hs)
      rw [List.find?_cons_of_neg _ (by simpa using fun h => hne h.symm)]
      exact ih seen g hg
    case isFalse hs =>
      rcases List.mem_cons.1 hg with hg | hg
      · subst hg
        rw [List.find?_cons_of_pos _ (by simp)]
      · have hnotin := dedupGo_not_seen rest (f0.name :: seen) g hg
        have hne : g.name ≠ f0.name := fun heq => hnotin (by simp [heq])
        rw [List.find?_cons_of_neg _ (by simpa using fun h => hne h.symm)]
        exact ih (f0.name :: seen) g hg

theorem endsWithL_iff (l s : List Char) :
    endsWithL l s = true ↔ ∃ x, l = x ++ s := by
  rw [endsWithL, List.isSuffixOf_iff_suffix]
  constructor
  · rintro ⟨x, hx⟩
    exact ⟨x, hx.symm⟩
  · rintro ⟨x, hx⟩
    exact ⟨x, hx.symm⟩

theorem dropRightL_append (x s : List Char) (k : Nat) (hk : s.length = k) :
    dropRightL (x ++ s) k = x := by
  subst hk
  rw [dropRightL, List.length_append, Nat.add_sub_cancel, List.take_left]

theorem filterMap_guard_eq_map {β : Type} (g : Nat × List Char → β) :
    ∀ L : List (Nat × List Char), (∀ m ∈ L, m.2 ≠ []) →
      (L.filterMap (fun m => if m.2 = [] then none else some (g m))) = L.map g := by
  intro L
  induction L with
  | nil => intro _; rfl
  | cons m rest ih =>
    intro h
    rw [List.filterMap_cons, List.map_cons]
    rw [if_neg (h m (List.mem_cons_self _ _))]
    rw [ih (fun m' hm' => h m' (List.mem_cons_of_mem _ hm'))]

theorem analyzeFieldsTS_eq_map (content : List Char) :
    analyzeFieldsTS content = (scanMatches nameKey content).map (mkFieldTS content) := by
  rw [analyzeFieldsTS]
  exact filterMap_guard_eq_map _ _ (scanMatches_snd_ne_nil nameKey content)

theorem mkFieldJS_eq_mkFieldTS (content : List Char) (m : Nat × List Char) :
    mkFieldJS content m = mkFieldTS content m := by
  rw [mkFieldJS, mkFieldTS]
  cases hf : findFirstMatch typeKey (content.drop m.1) with
  | none => rfl
  | some t =>
    simp only [Option.getD_some]
    rw [if_neg (findFirstMatch_ne_nil hf)]

theorem analyzeFields_copies_eq (content : List Char) :
    analyzeFieldsJS content = analyzeFieldsTS content := by
  rw [analyzeFieldsTS_eq_map, analyzeFieldsJS]
  exact List.map_congr_left (fun m _ => mkFieldJS_eq_mkFieldTS content m)

theorem fieldAt (content : List Char) (k : Nat)
    (hk : k < (scanMatches nameKey content).length) :
    (analyzeFieldsTS content).getD k defaultField =
      mkFieldTS content ((scanMatches nameKey content).getD k (0, [])) := by
  rw [analyzeFieldsTS_eq_map]
  rw [List.getD_eq_getElem _ _ (by simpa using hk), List.getElem_map,
    ← List.getD_eq_getElem _ (0, ([] : List Char)) hk]

theorem lookupL_mem {t v : List Char} :
    ∀ {table : List (List Char × List Char)}, lookupL t table = some v →
      v ∈ table.map Prod.snd := by
  intro table
  induction table with
  | nil => intro h; exact Option.noConfusion h
  | cons p rest ih =>
    obtain ⟨k, val⟩ := p
    intro h
    rw [lookupL] at h
    by_cases htk : t = k
    · rw [if_pos htk] at h
      exact List.mem_cons.2 (Or.inl (Option.some.inj h).symm)
    · rw [if_neg htk] at h
      exact List.mem_cons_of_mem _ (ih h)

theorem typeMapLookup_ne_nil {t v : List Char} (h : typeMapLookup t = some v) : v ≠ [] := by
  have hv := lookupL_mem h
  revert hv
  exact fun hv => (by decide : ∀ x ∈ typeMap.map Prod.snd, x ≠ []) v hv

theorem pluralize_eq_of_ne_posts (s : List Char) (h : s ≠ "Posts".toList) :
    pluralizeJS s = pluralizeTS s := by
  by_cases h1 : s = "Media".toList
  · simp only [pluralizeJS, pluralizeTS, if_pos h1]
  · by_cases h2 : s = "Pages".toList
    · simp only [pluralizeJS, pluralizeTS, if_neg h1, if_pos h2]
    · by_cases h3 : s = "Users".toList
      · simp only [pluralizeJS, pluralizeTS, if_neg h1, if_neg h2, if_pos h3]
      · simp only [pluralizeJS, pluralizeTS, if_neg h1, if_neg h2, if_neg h3, if_neg h]

theorem displayName_copies_eq (tm : Option (List Char)) (slug : List Char)
    (h : ∀ t, tm = some t → t ≠ []) :
    displayNameJS tm slug = displayNameTS tm slug := by
  cases tm with
  | none => rfl
  | some t =>
    simp only [displayNameJS, displayNameTS]
    by_cases ht : t = "title".toList
    · simp only [if_pos ht]
    · simp only [if_neg ht, if_neg (h t rfl)]

theorem extract_copies_eq (content filename : List Char)
    (hcond : (extractCollectionMetadataTS content filename).map (fun md => md.displayName)
      ≠ some "Posts".toList) :
    extractCollectionMetadataJS content filename
      = extractCollectionMetadataTS content filename := by
  cases hs : findFirstMatch slugKey content with
  | none => simp only [extractCollectionMetadataJS, extractCollectionMetadataTS, hs]
  | some slug =>
    have hnil : ¬ (slug = []) := findFirstMatch_ne_nil hs
    have hdn : displayNameJS (findFirstMatch titleKey content) slug
        = displayNameTS (findFirstMatch titleKey content) slug :=
      displayName_copies_eq _ _ (fun t ht => findFirstMatch_ne_nil ht)
    have hdne : displayNameTS (findFirstMatch titleKey content) slug ≠ "Posts".toList := by
      intro heq
      apply hcond
      simp only [extractCollectionMetadataTS, hs, if_neg hnil, Option.map_some']
      rw [heq]
    simp only [extractCollectionMetadataJS, extractCollectionMetadataTS, hs, if_neg hnil]
    rw [hdn, pluralize_eq_of_ne_posts _ hdne, analyzeFields_copies_eq]

/-! ## Claim theorems -/

/-- C1: for every document text and every field-name-declaration match in it,
the `required` flag of the FieldDescriptor produced by `analyzeFields` is true
iff the literal marker `required: true` occurs within the fixed-size
200-character window of text starting at that field's name-declaration
match. -/
theorem analyzeFields_required_window (content : List Char) (k : Nat)
    (hk : k < (scanMatches nameKey content).length) :
    ((analyzeFieldsTS content).getD k defaultField).required = true ↔
      ∃ x y, (content.drop ((scanMatches nameKey content).getD k (0, [])).1).take 200
        = x ++ requiredMarker ++ y := by
  rw [fieldAt content k hk]
  simp only [mkFieldTS]
  exact isSubstrIn_iff requiredMarker _

theorem analyzeFields_required_window_witness :
    ((analyzeFieldsTS ("name: `a` required: true").toList).getD 0 defaultField).required
      = true :=
  (analyzeFields_required_window ("name: `a` required: true").toList 0 (by decide)).mpr
    ⟨"name: `a` ".toList, [], by decide⟩

/-- C4 (code bug): the configured `fieldMappings` override table is never
consulted by the capability-flag computation: `extractCollectionMetadata`
takes no configuration and hard-codes the name `slug`, so a document whose
only field is `urlSlug` (the documented override example) still gets
`hasSlug = false`. -/
theorem capability_flags_ignore_field_mappings :
    (extractCollectionMetadataTS "slug: `things` name: `urlSlug` type: `text`".toList
        "Things.ts".toList).map
      (fun md => (md.hasSlug, md.fields.map (fun f => f.name)))
      = some (false, ["urlSlug".toList]) := by decide

/-- C5: a document with no occurrence of the slug-declaration pattern makes
`extractCollectionMetadata` return the skip signal `none`; the embedding is a
total function, so no error is possible. -/
theorem extract_skips_without_slug_marker (content filename : List Char)
    (h : ∀ i, i ≤ content.length → matchKeyAt slugKey (content.drop i) = none) :
    extractCollectionMetadataTS content filename = none := by
  have hall : ∀ j, matchKeyAt slugKey (content.drop j) = none := by
    intro j
    by_cases hj : j ≤ content.length
    · exact h j hj
    · rw [List.drop_eq_nil_of_le (by omega)]
      exact matchKeyAt_nil (by decide)
  simp only [extractCollectionMetadataTS, findFirstMatch_eq_none hall]

theorem extract_skips_without_slug_marker_witness :
    extractCollectionMetadataTS "const x = 1".toList "index.ts".toList = none :=
  extract_skips_without_slug_marker "const x = 1".toList "index.ts".toList (by decide)

/-- C6: `deduplicateFields` keeps the retained entries in their original
relative order (sublist), leaves at most one entry per distinct name (nodup
names), keeps at least one entry for every input name, and every retained
entry is the first occurrence of its name in the input (hence keeps that
occurrence's `type` and `required` values). -/
theorem deduplicateFields_spec (fields : List FieldMetadata) :
    (deduplicateFields fields).Sublist fields
    ∧ ((deduplicateFields fields).map (fun f => f.name)).Nodup
    ∧ (∀ f ∈ fields, ∃ g ∈ deduplicateFields fields, g.name = f.name)
    ∧ (∀ g ∈ deduplicateFields fields,
        fields.find? (fun f => f.name == g.name) = some g) := by
  refine ⟨dedupGo_sublist fields [], dedupGo_names_nodup fields [], ?_, ?_⟩
  · intro f hf
    rcases dedupGo_covers fields [] f hf with hmem | h
    · simp at hmem
    · exact h
  · intro g hg
    exact dedupGo_first_occurrence fields [] g hg

theorem deduplicateFields_spec_witness :
    ∃ g ∈ deduplicateFields
        [⟨"tags".toList, "array".toList, true⟩, ⟨"title".toList, "text".toList, false⟩,
         ⟨"tags".toList, "text".toList, false⟩],
      g.name = ("tags".toList : List Char) :=
  (deduplicateFields_spec
      [⟨"tags".toList, "array".toList, true⟩, ⟨"title".toList, "text".toList, false⟩,
       ⟨"tags".toList, "text".toList, false⟩]).2.2.1
    ⟨"tags".toList, "text".toList, false⟩ (by decide)

/-- C7: `getTypeScriptType` is total and always returns a non-empty signature
string, and any primitive tag absent from the general table maps to the open
signature `any` (the name-based special cases only fire on the tag `select`,
which is in the table). -/
theorem getTypeScriptType_total (payloadType fieldName : List Char) :
    getTypeScriptTypeTS payloadType fieldName ≠ [] ∧
    (typeMapLookup payloadType = none →
      getTypeScriptTypeTS payloadType fieldName = "any".toList) := by
  unfold getTypeScriptTypeTS
  split
  case isTrue hc =>
    refine ⟨by decide, ?_⟩
    intro hnone
    rw [hc.2] at hnone
    exact absurd hnone (by decide)
  case isFalse hc =>
    split
    case isTrue hc2 =>
      refine ⟨by decide, ?_⟩
      intro hnone
      rw [hc2.2] at hnone
      exact absurd hnone (by decide)
    case isFalse hc2 =>
      cases hl : typeMapLookup payloadType with
      | none => exact ⟨by decide, fun _ => rfl⟩
      | some v =>
        refine ⟨?_, fun hnone => absurd hnone (by simp)⟩
        simpa using typeMapLookup_ne_nil hl

theorem getTypeScriptType_total_witness :
    getTypeScriptTypeTS "colorPicker".toList "color".toList = "any".toList :=
  (getTypeScriptType_total "colorPicker".toList "color".toList).2 (by decide)

/-- C2 (counterexample): the type search is not bounded — in
`name: `a` name: `b` type: `number``, the only type-declaration marker starts
at index 20, after the second field's name declaration at index 10, yet the
first field (declared at index 0) is assigned `number` rather than the
default `text`: the marker of a later field is attributed to an earlier
one. -/
theorem analyzeFields_type_cross_field_leak :
    (scanMatches nameKey "name: `a` name: `b` type: `number`".toList).map Prod.fst = [0, 10]
    ∧ occCount typeKey ("name: `a` name: `b` type: `number`".toList.take 20) = 0
    ∧ ((analyzeFieldsTS "name: `a` name: `b` type: `number`".toList).getD 0
        defaultField).type = "number".toList := by decide

/-- C2 (amended): the type search for each extracted field scans the entire
remaining document after that field's name-declaration match: the field's
type is the capture of the first type-declaration match anywhere in that
suffix — however far away, even past later fields — and the field defaults to
the generic `text` tag exactly when no type marker occurs anywhere in the
suffix. -/
theorem analyzeFields_type_scans_whole_suffix (content : List Char) (k : Nat)
    (hk : k < (scanMatches nameKey content).length) :
    ((∀ j, matchKeyAt typeKey
        ((content.drop ((scanMatches nameKey content).getD k (0, [])).1).drop j) = none) →
      ((analyzeFieldsTS content).getD k defaultField).type = "text".toList)
    ∧ ∀ j s n,
        matchKeyAt typeKey
          ((content.drop ((scanMatches nameKey content).getD k (0, [])).1).drop j)
          = some (s, n) →
        (∀ j', j' < j → matchKeyAt typeKey
          ((content.drop ((scanMatches nameKey content).getD k (0, [])).1).drop j') = none) →
        ((analyzeFieldsTS content).getD k defaultField).type = s := by
  rw [fieldAt content k hk]
  constructor
  · intro hnone
    simp only [mkFieldTS]
    rw [findFirstMatch_eq_none hnone]
  · intro j s n hsome hbefore
    simp only [mkFieldTS]
    rw [findFirstMatch_eq_some (by decide) hsome hbefore]
    show (if s = [] then "text".toList else s) = s
    rw [if_neg (matchKeyAt_pos hsome).2]

theorem analyzeFields_type_scans_whole_suffix_witness :
    ((analyzeFieldsTS "name: `a` type: `x`".toList).getD 0 defaultField).type
      = "x".toList :=
  (analyzeFields_type_scans_whole_suffix "name: `a` type: `x`".toList 0 (by decide)).2
    10 "x".toList 9 (by decide) (by decide)

/-- C3 (counterexample): `extractCollectionMetadata` stores the raw field
list: a document declaring the field `title` twice yields a stored `fields`
sequence with two entries of the same name — not deduplicated. -/
theorem extract_stores_duplicate_fields :
    (extractCollectionMetadataTS
        "slug: `p` name: `title` type: `text` name: `title`".toList "p.ts".toList).map
      (fun md => md.fields.map (fun f => f.name))
      = some ["title".toList, "title".toList]
    ∧ ¬ (["title".toList, ("title".toList : List Char)]).Nodup := by decide

/-- C3 (amended): the `fields` sequence stored in the descriptor is exactly
the raw `analyzeFields` output (possibly containing repeated names);
deduplication happens only downstream, in the type-file emitter, whose
`deduplicateFields` pass does produce name-distinct entries — one emitted
field-definition line per retained field. -/
theorem extract_fields_raw_dedup_downstream (content filename : List Char) :
    (extractCollectionMetadataTS content filename).elim True
      (fun md => md.fields = analyzeFieldsTS content)
    ∧ ((deduplicateFields (analyzeFieldsTS content)).map (fun f => f.name)).Nodup
    ∧ (generateFieldDefinitions (analyzeFieldsTS content)).length
        = (deduplicateFields (analyzeFieldsTS content)).length := by
  refine ⟨?_, dedupGo_names_nodup _ [], by rw [generateFieldDefinitions, List.length_map]⟩
  cases hs : findFirstMatch slugKey content with
  | none => simp [extractCollectionMetadataTS, hs]
  | some slug =>
    by_cases hnil : slug = []
    · simp [extractCollectionMetadataTS, hs, hnil]
    · simp [extractCollectionMetadataTS, hs, hnil]

/-- C8 (counterexample): `Type` is handled only by the regular suffix rules
(neither it nor its plural is in an irregular table), yet the round trip
fails: `pluralize "Type" = "Types"` and `singularize "Types" = "Typ"`. -/
theorem inflection_roundtrip_fails_on_e :
    "Type".toList ∉ pluralSpecialInputs
    ∧ pluralizeTS "Type".toList ∉ singularSpecialInputs
    ∧ pluralizeTS "Type".toList = "Types".toList
    ∧ singularizeTS (pluralizeTS "Type".toList) = "Typ".toList
    ∧ "Typ".toList ≠ "Type".toList := by decide

/-- C8 (amended): for every identifier handled only by the regular suffix
rules (not in `pluralize`'s irregular table, with a plural not in
`singularize`'s irregular table) that does not end in the letter `e`,
`singularize (pluralize x) = x`; in particular the round trip holds for
`Post` and `Category` (see the witness). -/
theorem pluralize_singularize_roundtrip (l : List Char)
    (h1 : l ∉ pluralSpecialInputs)
    (h2 : pluralizeTS l ∉ singularSpecialInputs)
    (h3 : endsWithL l "e".toList = false) :
    singularizeTS (pluralizeTS l) = l := by
  simp only [pluralSpecialInputs, List.mem_cons, List.not_mem_nil, or_false, not_or] at h1
  obtain ⟨hM, hPg, hU, hPo, hEx⟩ := h1
  by_cases hy : endsWithL l "y".toList = true
  · obtain ⟨x, hx⟩ := (endsWithL_iff l _).1 hy
    have hpl : pluralizeTS l = x ++ "ies".toList := by
      simp only [pluralizeTS]
      rw [if_neg hM, if_neg hPg, if_neg hU, if_neg hPo, if_neg hEx, if_pos hy, hx,
        dropRightL_append x "y".toList 1 rfl]
    rw [hpl] at h2 ⊢
    simp only [singularSpecialInputs, List.mem_cons, List.not_mem_nil, or_false,
      not_or] at h2
    obtain ⟨sM, sPg, sU⟩ := h2
    simp only [singularizeTS]
    rw [if_neg sM, if_neg sPg, if_neg sU, if_pos ((endsWithL_iff _ _).2 ⟨x, rfl⟩),
      dropRightL_append x "ies".toList 3 rfl, hx]
  · by_cases hsch :
      (endsWithL l "s".toList || endsWithL l "sh".toList || endsWithL l "ch".toList) = true
    · have hpl : pluralizeTS l = l ++ "es".toList := by
        simp only [pluralizeTS]
        rw [if_neg hM, if_neg hPg, if_neg hU, if_neg hPo, if_neg hEx, if_neg hy,
          if_pos hsch]
      have hsch3 : endsWithL l "s".toList = true ∨ endsWithL l "sh".toList = true ∨
          endsWithL l "ch".toList = true := by
        simpa [Bool.or_eq_true, or_assoc] using hsch
      have hlast : l.getLast? = some 's' ∨ l.getLast? = some 'h' := by
        rcases hsch3 with h | h | h
        · obtain ⟨x, hx⟩ := (endsWithL_iff l _).1 h
          left
          rw [hx]
          exact List.getLast?_concat x
        · obtain ⟨x, hx⟩ := (endsWithL_iff l _).1 h
          right
          rw [hx, show ("sh".toList : List Char) = ['s'] ++ ['h'] from rfl,
            ← List.append_assoc]
          exact List.getLast?_concat _
        · obtain ⟨x, hx⟩ := (endsWithL_iff l _).1 h
          right
          rw [hx, show ("ch".toList : List Char) = ['c'] ++ ['h'] from rfl,
            ← List.append_assoc]
          exact List.getLast?_concat _
      rw [hpl] at h2 ⊢
      simp only [singularSpecialInputs, List.mem_cons, List.not_mem_nil, or_false,
        not_or] at h2
      obtain ⟨sM, sPg, sU⟩ := h2
      have hies : ¬ (endsWithL (l ++ "es".toList) "ies".toList = true) := by
        intro hcon
        obtain ⟨y, hy2⟩ := (endsWithL_iff _ _).1 hcon
        have h' : l ++ "es".toList = (y ++ ['i']) ++ "es".toList := by
          rw [hy2, show ("ies".toList : List Char) = ['i'] ++ "es".toList from rfl,
            List.append_assoc]
        have hl' : l = y ++ ['i'] := List.append_cancel_right h'
        have hi : l.getLast? = some 'i' := by
          rw [hl']
          exact List.getLast?_concat _
        rcases hlast with hh | hh <;> rw [hi] at hh <;> simp at hh
      simp only [singularizeTS]
      rw [if_neg sM, if_neg sPg, if_neg sU, if_neg hies,
        if_pos ((endsWithL_iff _ _).2 ⟨l, rfl⟩)]
      exact dropRightL_append l "es".toList 2 rfl
    · have hpl : pluralizeTS l = l ++ "s".toList := by
        simp only [pluralizeTS]
        rw [if_neg hM, if_neg hPg, if_neg hU, if_neg hPo, if_neg hEx, if_neg hy,
          if_neg hsch]
      rw [hpl] at h2 ⊢
      simp only [singularSpecialInputs, List.mem_cons, List.not_mem_nil, or_false,
        not_or] at h2
      obtain ⟨sM, sPg, sU⟩ := h2
      have hies : ¬ (endsWithL (l ++ "s".toList) "ies".toList = true) := by
        intro hcon
        obtain ⟨y, hy2⟩ := (endsWithL_iff _ _).1 hcon
        have h' : l ++ "s".toList = (y ++ ['i', 'e']) ++ "s".toList := by
          rw [hy2, show ("ies".toList : List Char) = ['i', 'e'] ++ "s".toList from rfl,
            List.append_assoc]
        have hl' : l = y ++ ['i', 'e'] := List.append_cancel_right h'
        have he : endsWithL l "e".toList = true := by
          refine (endsWithL_iff _ _).2 ⟨y ++ ['i'], ?_⟩
          rw [hl', show (['i', 'e'] : List Char) = ['i'] ++ "e".toList from rfl,
            ← List.append_assoc]
        exact absurd (h3.symm.trans he) (by simp)
      have hes : ¬ (endsWithL (l ++ "s".toList) "es".toList = true) := by
        intro hcon
        obtain ⟨y, hy2⟩ := (endsWithL_iff _ _).1 hcon
        have h' : l ++ "s".toList = (y ++ ['e']) ++ "s".toList := by
          rw [hy2, show ("es".toList : List Char) = ['e'] ++ "s".toList from rfl,
            List.append_assoc]
        have hl' : l = y ++ ['e'] := List.append_cancel_right h'
        have he : endsWithL l "e".toList = true := (endsWithL_iff _ _).2 ⟨y, hl'⟩
        exact absurd (h3.symm.trans he) (by simp)
      simp only [singularizeTS]
      rw [if_neg sM, if_neg sPg, if_neg sU, if_neg hies, if_neg hes,
        if_pos ((endsWithL_iff _ _).2 ⟨l, rfl⟩)]
      exact dropRightL_append l "s".toList 1 rfl

theorem pluralize_singularize_roundtrip_witness :
    singularizeTS (pluralizeTS "Post".toList) = "Post".toList
    ∧ singularizeTS (pluralizeTS "Category".toList) = "Category".toList
    ∧ pluralizeTS "Post".toList = "Posts".toList
    ∧ pluralizeTS "Category".toList = "Categories".toList :=
  ⟨pluralize_singularize_roundtrip "Post".toList (by decide) (by decide) (by decide),
   pluralize_singularize_roundtrip "Category".toList (by decide) (by decide) (by decide),
   by decide, by decide⟩

/-- C9 (counterexample): the two `pluralize` copies disagree on `Posts`: the
TypeScript copy has an `Posts → Posts` irregular case, the JavaScript copy
does not and appends `es`, giving `Postses`. -/
theorem pluralize_copies_disagree_on_posts :
    pluralizeTS "Posts".toList = "Posts".toList
    ∧ pluralizeJS "Posts".toList = "Postses".toList
    ∧ pluralizeJS "Posts".toList ≠ pluralizeTS "Posts".toList := by decide

/-- C9 (amended): the TypeScript and JavaScript copies agree function by
function — `analyzeFields`, `getTypeScriptType` and `singularize` on every
input, and `pluralize` on every input except `Posts`, where they differ
(hence the `extractCollectionMetadata` copies agree on every document whose
derived display name is not `Posts`). -/
theorem implementations_agree_except_posts :
    (∀ content, analyzeFieldsJS content = analyzeFieldsTS content)
    ∧ (∀ t n, getTypeScriptTypeJS t n = getTypeScriptTypeTS t n)
    ∧ (∀ s, singularizeJS s = singularizeTS s)
    ∧ (∀ s, s ≠ "Posts".toList → pluralizeJS s = pluralizeTS s)
    ∧ pluralizeJS "Posts".toList ≠ pluralizeTS "Posts".toList
    ∧ (∀ content filename,
        (extractCollectionMetadataTS content filename).map (fun md => md.displayName)
          ≠ some "Posts".toList →
        extractCollectionMetadataJS content filename
          = extractCollectionMetadataTS content filename) :=
  ⟨analyzeFields_copies_eq, fun _ _ => rfl, fun _ => rfl,
   pluralize_eq_of_ne_posts, by decide, extract_copies_eq⟩

theorem implementations_agree_except_posts_witness :
    pluralizeJS "Category".toList = pluralizeTS "Category".toList
    ∧ extractCollectionMetadataJS "slug: `posts` useAsTitle: `name`".toList "x.ts".toList
      = extractCollectionMetadataTS "slug: `posts` useAsTitle: `name`".toList
          "x.ts".toList :=
  ⟨implementations_agree_except_posts.2.2.2.1 "Category".toList (by decide),
   implementations_agree_except_posts.2.2.2.2.2 "slug: `posts` useAsTitle: `name`".toList
     "x.ts".toList (by decide)⟩

/-- C10 (counterexample): `matchAll` reports only non-overlapping matches:
in `name: `(three spaces)name: `abc``, the name-declaration pattern occurs at
two positions (0 and 10), but the second occurrence starts inside the first
match's extent, so `analyzeFields` returns a single descriptor — not one per
occurrence. -/
theorem analyzeFields_skips_overlapping_occurrence :
    occCount nameKey "name: `   name: `abc`".toList = 2
    ∧ (analyzeFieldsTS "name: `   name: `abc`".toList).length = 1 := by decide

/-- C10 (amended): `analyzeFields` returns exactly one descriptor per match
of the leftmost non-overlapping scan of the name-declaration pattern
(occurrences starting inside an earlier match's extent are skipped): the
descriptor names are the scan captures in textual order (the match indices
are strictly increasing), and every reported match is a genuine occurrence of
the pattern at its index. -/
theorem analyzeFields_scan_correspondence (content : List Char) :
    (analyzeFieldsTS content).map (fun f => f.name)
      = (scanMatches nameKey content).map Prod.snd
    ∧ List.Chain' (fun a b : Nat × List Char => a.1 < b.1) (scanMatches nameKey content)
    ∧ ∀ p ∈ scanMatches nameKey content,
        ∃ n, matchKeyAt nameKey (content.drop p.1) = some (p.2, n) := by
  refine ⟨?_, scanMatchesAux_chain nameKey content.length content 0,
    scanMatches_sound nameKey content⟩
  rw [analyzeFieldsTS_eq_map, List.map_map]
  exact List.map_congr_left (fun m _ => rfl)

theorem analyzeFields_scan_correspondence_witness :
    ∃ n, matchKeyAt nameKey ("name: `slug`".toList.drop 0) = some ("slug".toList, n) :=
  (analyzeFields_scan_correspondence "name: `slug`".toList).2.2 (0, "slug".toList)
    (by decide)
